import Mathlib

/-!
Verification development for the IPAM-Prefix-Allocator repository.

The repository ships a browser dashboard (`src/unnamed/part_000`), an
authentication shim (`src/static/auth.js`) and a README; the address-space
allocation engine itself is referenced by those files but is not part of the
supplied source.  Definitions below therefore fall into two groups:

* models of the engine, marked `Modelled from the spec:`, built from the
  specification's description of SizingResolver, AddressSpaceAllocator
  (a buddy allocator over CIDR blocks), PairingCoordinator and the
  AllocationLedger;
* direct translations of the dashboard and auth JavaScript.

Machine addresses are naturals below `2 ^ 32`; a CIDR block is a pair of a
base address and a prefix length.
-/

namespace IPAM

/-- Modelled from the spec: an AddressBlock, a (base address, prefix length)
pair denoting the range `[base, base + 2^(32 - len))`.  `len` is the prefix
length. -/
structure Block where
  base : ℕ
  len : ℕ
deriving DecidableEq

/-- Size (address count) of a block: `2^(32 - len)`. -/
def sz (b : Block) : ℕ := 2 ^ (32 - b.len)

/-- Two blocks are disjoint: their address ranges do not intersect. -/
def BDisj (a b : Block) : Prop := a.base + sz a ≤ b.base ∨ b.base + sz b ≤ a.base

instance (a b : Block) : Decidable (BDisj a b) := by unfold BDisj; infer_instance

/-- Containment of one block's range in another's. -/
def Sub (a c : Block) : Prop := c.base ≤ a.base ∧ a.base + sz a ≤ c.base + sz c

instance (a c : Block) : Decidable (Sub a c) := by unfold Sub; infer_instance

/-- Natural alignment: the base address is a multiple of the block size. -/
def Aligned (b : Block) : Prop := b.base % sz b = 0

instance (b : Block) : Decidable (Aligned b) := by unfold Aligned; infer_instance

/-- Well-formed block for a pool `P`: aligned, inside the pool, prefix length
between the pool's own and 32. -/
def WF (P b : Block) : Prop := Aligned b ∧ Sub b P ∧ P.len ≤ b.len ∧ b.len ≤ 32

instance (P b : Block) : Decidable (WF P b) := by unfold WF; infer_instance

/-- A pool descriptor is itself an aligned block fitting in the 32-bit space. -/
def GoodPool (P : Block) : Prop := Aligned P ∧ P.len ≤ 32 ∧ P.base + sz P ≤ 2 ^ 32

instance (P : Block) : Decidable (GoodPool P) := by unfold GoodPool; infer_instance

/-- Modelled from the spec: the deterministic buddy of a block — the other
half of its aligned parent range (for aligned blocks this agrees with the
spec's base-address XOR description). -/
def buddy (b : Block) : Block :=
  ⟨if b.base % (2 * sz b) = 0 then b.base + sz b else b.base - sz b, b.len⟩

/-- Modelled from the spec: the aligned parent range of a block and its
buddy. -/
def parent (b : Block) : Block :=
  ⟨if b.base % (2 * sz b) = 0 then b.base else b.base - sz b, b.len - 1⟩

/-- Lower half produced by a buddy split. -/
def loHalf (c : Block) : Block := ⟨c.base, c.len + 1⟩

/-- Upper half produced by a buddy split. -/
def hiHalf (c : Block) : Block := ⟨c.base + 2 ^ (31 - c.len), c.len + 1⟩

/-- Best-fit key: orders candidate free blocks by span ascending (larger
prefix length first) and then by base address ascending. -/
def keyOf (b : Block) : ℕ := (32 - b.len) * 2 ^ 32 + b.base

/-- Inverse of `keyOf` on well-formed blocks. -/
def unkey (k : ℕ) : Block := ⟨k % 2 ^ 32, 32 - k / 2 ^ 32⟩

/-- Modelled from the spec: best-fit selection of AddressSpaceAllocator's
Reserve — the smallest free block of size at least `2^(32-p)`, ties broken by
lowest base address. -/
def bestFit (fs : Finset Block) (p : ℕ) : Option Block :=
  let ks := (fs.filter (fun b => b.len ≤ p)).image keyOf
  if h : ks.Nonempty then some (unkey (ks.min' h)) else none

/-- Modelled from the spec: recursive halving of a chosen free block.  The
result is the reserved sub-block (always the lowest-address descendant) and
the list of unused split siblings that go back to the free set.  The first
argument is the number of halvings. -/
def splitTo : ℕ → Block → Block × List Block
  | 0, c => (c, [])
  | n + 1, c => ((splitTo n (loHalf c)).1, hiHalf c :: (splitTo n (loHalf c)).2)

/-- Modelled from the spec: the coalescing loop of Release.  Starting from a
freed block, while the block is finer than the pool span and its buddy is
free, merge the two into their parent; finally insert the result.  The fuel
argument bounds the number of merges; `release` passes the block's prefix
length, which always suffices. -/
def coalesceF (pl : ℕ) : ℕ → Finset Block → Block → Finset Block
  | 0, fs, b => insert b fs
  | fuel + 1, fs, b =>
    if b.len ≤ pl then insert b fs
    else if buddy b ∈ fs then coalesceF pl fuel (fs.erase (buddy b)) (parent b)
    else insert b fs

/-- Modelled from the spec: AddressSpaceAllocator.Release — return a block to
the free set and coalesce buddies upward to the pool boundary `pl`. -/
def release (pl : ℕ) (fs : Finset Block) (b : Block) : Finset Block :=
  coalesceF pl b.len fs b

/-- Modelled from the spec: AddressSpaceAllocator.Reserve — best-fit search,
buddy split down to the requested prefix length `p`, reserved block returned
and unused siblings re-inserted; `none` is PoolExhausted. -/
def reserve (fs : Finset Block) (p : ℕ) : Option (Block × Finset Block) :=
  match bestFit fs p with
  | none => none
  | some c => some ((splitTo (p - c.len) c).1, fs.erase c ∪ (splitTo (p - c.len) c).2.toFinset)

/-- The primary pool 10.0.0.0/16. -/
def primaryPool : Block := ⟨167772160, 16⟩

/-- The CGNAT pool 100.64.0.0/10. -/
def cgnatPool : Block := ⟨1681915904, 10⟩

/-- Usable IP count of a block of prefix length `p`: `2^(32-p) - 5` (policy
reserve of 5 addresses). -/
def usable (p : ℕ) : ℕ := 2 ^ (32 - p) - 5

/-- Modelled from the spec: SizingResolver host-count mode, the seven-row
sizing table (backend absent from src/).  Returns the primary prefix length,
`none` being HostCountOutOfRange. -/
def resolveHosts (h : ℕ) : Option ℕ :=
  if h < 1 then none
  else if h ≤ 59 then some 26
  else if h ≤ 123 then some 25
  else if h ≤ 251 then some 24
  else if h ≤ 507 then some 23
  else if h ≤ 1019 then some 22
  else if h ≤ 2043 then some 21
  else if h ≤ 4091 then some 20
  else none

/-- Clamp `x` into `[lo, hi]`. -/
def clampTo (lo hi x : ℕ) : ℕ := max lo (min hi x)

/-- Modelled from the spec: CGNAT prefix length paired with a primary prefix
length — `p - 5`, additionally clamped into `[15, 21]`. -/
def cgnatOf (p : ℕ) : ℕ := clampTo 15 21 (p - 5)

/-- A sizing request: host count or explicit prefix length. -/
inductive SizingReq where
  | hosts (n : ℕ)
  | plen (p : ℕ)
deriving DecidableEq

/-- Modelled from the spec: SizingResolver — validate and produce the primary
prefix length; `none` is HostCountOutOfRange / PrefixOutOfRange. -/
def resolve : SizingReq → Option ℕ
  | SizingReq.hosts n => resolveHosts n
  | SizingReq.plen p => if 20 ≤ p ∧ p ≤ 26 then some p else none

/-- Modelled from the spec: a ledger row — allocation id, owning VPC name,
primary block and CGNAT block. -/
structure Alloc where
  aid : ℕ
  vpc : List Char
  pblk : Block
  cblk : Block
deriving DecidableEq

/-- Modelled from the spec: engine state — the two pools' free sets, the live
ledger rows and the next allocation id. -/
structure St where
  freeP : Finset Block
  freeC : Finset Block
  allocs : List Alloc
  nextId : ℕ
deriving DecidableEq

/-- Ledger operations exercised by the dashboard. -/
inductive Op where
  | create (vpc : List Char) (req : SizingReq)
  | del (aid : ℕ)
  | move (aid : ℕ) (vpc : List Char)

/-- Modelled from the spec: one ledger operation.  `create` runs
SizingResolver then PairingCoordinator.Allocate (primary Reserve first, CGNAT
Reserve second, with rollback of the primary reservation when the CGNAT one
fails); `del` releases both blocks of the row and drops it; `move` rewrites
only the owning VPC name.  Failed operations leave the state unchanged. -/
def step (s : St) : Op → St
  | Op.create vpc req =>
    match resolve req with
    | none => s
    | some p =>
      match reserve s.freeP p with
      | none => s
      | some bf =>
        match reserve s.freeC (cgnatOf p) with
        | none => St.mk (release primaryPool.len bf.2 bf.1) s.freeC s.allocs s.nextId
        | some cf =>
          St.mk bf.2 cf.2 (Alloc.mk s.nextId vpc bf.1 cf.1 :: s.allocs) (s.nextId + 1)
  | Op.del aid =>
    match s.allocs.find? (fun a => decide (a.aid = aid)) with
    | none => s
    | some a =>
      St.mk (release primaryPool.len s.freeP a.pblk) (release cgnatPool.len s.freeC a.cblk)
        (s.allocs.filter (fun x => decide (x.aid ≠ aid))) s.nextId
  | Op.move aid vpc =>
    St.mk s.freeP s.freeC
      (s.allocs.map (fun a => if a.aid = aid then Alloc.mk a.aid vpc a.pblk a.cblk else a))
      s.nextId

/-- Modelled from the spec: startup state — each pool's free set is the whole
pool, no live allocations. -/
def initSt : St := St.mk {primaryPool} {cgnatPool} ([] : List Alloc) 0

/-- Run a sequence of ledger operations from the startup state. -/
def run (ops : List Op) : St := ops.foldl step initSt

/-- Free-set invariant of one pool: every free block is well formed, free
blocks are pairwise disjoint, and no block's buddy is also free (minimal
decomposition). -/
def FreeInv (P : Block) (fs : Finset Block) : Prop :=
  (∀ x ∈ fs, WF P x) ∧ (∀ x ∈ fs, ∀ y ∈ fs, x ≠ y → BDisj x y) ∧
    (∀ x ∈ fs, P.len < x.len → buddy x ∉ fs)

instance (P : Block) (fs : Finset Block) : Decidable (FreeInv P fs) := by
  unfold FreeInv; infer_instance

/-- Engine-state invariant: both free sets satisfy `FreeInv`, ledger blocks
are well formed and pairwise disjoint per pool, ledger blocks are disjoint
from the free space of their pool, allocation ids are distinct and below the
id counter. -/
def Inv (s : St) : Prop :=
  FreeInv primaryPool s.freeP ∧ FreeInv cgnatPool s.freeC ∧
    (∀ a ∈ s.allocs, WF primaryPool a.pblk ∧ WF cgnatPool a.cblk) ∧
    s.allocs.Pairwise (fun a b => BDisj a.pblk b.pblk ∧ BDisj a.cblk b.cblk) ∧
    (∀ a ∈ s.allocs, ∀ x ∈ s.freeP, BDisj a.pblk x) ∧
    (∀ a ∈ s.allocs, ∀ x ∈ s.freeC, BDisj a.cblk x) ∧
    s.allocs.Pairwise (fun a b => a.aid ≠ b.aid) ∧
    (∀ a ∈ s.allocs, a.aid < s.nextId)

instance (s : St) : Decidable (Inv s) := by unfold Inv; infer_instance

/-- Whitespace characters recognised by the model of JavaScript's
`String.trim`. -/
def jsWS (c : Char) : Bool := c == ' ' || c == '\t' || c == '\n' || c == '\r'

/-- Model of JavaScript `String.trim`: drop leading and trailing
whitespace. -/
def mtrim (s : List Char) : List Char :=
  ((s.dropWhile jsWS).reverse.dropWhile jsWS).reverse

/-- Translation of the host-count validation in `createAllocation`
(src/unnamed/part_000 lines 83-88): the request is blocked when the field is
empty (`!hostCount`), below 1, or above 4000; `none` models the empty
field. -/
def hostsFieldOk : Option ℤ → Bool
  | none => false
  | some h => if h < 1 then false else if 4000 < h then false else true

/-- The dashboard's allocation mode toggle (`allocationMode`). -/
inductive Mode where
  | hosts
  | plen
deriving DecidableEq

/-- Create-request payload as built by `createAllocation`: the `vpc` field
plus the optional `hosts` and `prefix_length` fields (the latter called
`lenField` here). -/
structure Payload where
  vpcField : List Char
  hostsField : Option ℤ
  lenField : Option ℤ
deriving DecidableEq

/-- Translation of `createAllocation` (src/unnamed/part_000 lines 72-113) up
to the request submission: validate the trimmed VPC name and the
mode-dependent field, then build the payload; `none` means no request is
submitted. -/
def createPayload (vpcRaw : List Char) (mode : Mode) (hostVal lenVal : Option ℤ) :
    Option Payload :=
  if mtrim vpcRaw = [] then none
  else
    match mode with
    | Mode.hosts =>
      if hostsFieldOk hostVal then some (Payload.mk (mtrim vpcRaw) hostVal none) else none
    | Mode.plen =>
      match lenVal with
      | none => none
      | some v => some (Payload.mk (mtrim vpcRaw) none (some v))

/-- Translation of the guard in `editAllocationVpc` (src/unnamed/part_000
lines 280-285): `none` when the prompt is cancelled, the name trims to
empty, or the trimmed name equals the current VPC; otherwise the trimmed
name sent in the Move request. -/
def editDecision (promptRes : Option (List Char)) (currentVpc : List Char) :
    Option (List Char) :=
  match promptRes with
  | none => none
  | some s =>
    if s = [] then none
    else if mtrim s = [] then none
    else if mtrim s = currentVpc then none
    else some (mtrim s)

/-- A row of the dashboard's cached `allocations` array, reduced to the
fields `deleteVpc` reads. -/
structure AllocRow where
  rid : ℕ
  vpc : List Char
deriving DecidableEq

/-- Client-side allocation count used by `deleteVpc`
(src/unnamed/part_000 line 337): entries of the cached list whose `vpc`
field equals the given name. -/
def clientCount (cached : List AllocRow) (name : List Char) : ℕ :=
  (cached.filter (fun a => decide (a.vpc = name))).length

/-- Translation of `deleteVpc` (src/unnamed/part_000 lines 336-356) reduced
to the count shown in its success message: `none` when the confirm dialog is
declined or the response is not ok; on success the shown count — computed
from the cached list, the response body's `deleted_count` is never read. -/
def deleteVpcShownCount (cached : List AllocRow) (name : List Char) (confirmed : Bool)
    (respOk : Bool) (respDeletedCount : ℕ) : Option ℕ :=
  if confirmed then (if respOk then some (clientCount cached name) else none) else none

/-- Header name constant of auth.js. -/
def apiKeyHeader : String := "X-API-Key"

/-- Header name constant of auth.js. -/
def reqIdHeader : String := "X-Request-Id"

/-- Presence test on a header list (model of `Headers.has`). -/
def hhas (hs : List (String × String)) (n : String) : Bool :=
  hs.any (fun kv => decide (kv.1 = n))

/-- Lookup on a header list. -/
def hget (hs : List (String × String)) (n : String) : Option String :=
  (hs.find? (fun kv => decide (kv.1 = n))).map (fun kv => kv.2)

/-- Set a header only when absent (the `if (!headers.has(n)) headers.set(n,v)`
idiom of auth.js). -/
def hsetIfAbsent (hs : List (String × String)) (n v : String) : List (String × String) :=
  if hhas hs n then hs else hs ++ [(n, v)]

/-- Translation of the header preparation in `api` (src/static/auth.js lines
39-45): start from the caller's headers, add the API key and request id only
when the caller did not supply them. -/
def apiHeaders (callerHs : List (String × String)) (key reqId : String) :
    List (String × String) :=
  hsetIfAbsent (hsetIfAbsent callerHs apiKeyHeader key) reqIdHeader reqId

/-- Translation of `get` (src/static/auth.js lines 15-17): stored key or
`null`; `localStorage.getItem(...) || null` turns the empty string into
`null`. -/
def lsGet (st : Option String) : Option String :=
  match st with
  | none => none
  | some s => if s = "" then none else some s

/-- Translation of `ensure` (src/static/auth.js lines 29-37): return the
stored key, otherwise prompt; a cancelled or empty prompt throws (the
`Except.error` case), a supplied key is persisted.  The result carries the
key to use and the new stored state. -/
def ensure (st : Option String) (promptRes : Option String) :
    Except Unit (String × Option String) :=
  match lsGet st with
  | some k => Except.ok (k, st)
  | none =>
    match promptRes with
    | none => Except.error ()
    | some k => if k = "" then Except.error () else Except.ok (k, some k)

/-- Translation of `api` (src/static/auth.js lines 39-45): `ensure` first —
when it throws, no fetch happens (`Except.error`); otherwise the fetch is
issued with the prepared headers.  The result carries the headers of the
issued request and the stored-key state after the call. -/
def apiModel (st promptRes : Option String) (callerHs : List (String × String))
    (reqId : String) : Except Unit (List (String × String) × Option String) :=
  match ensure st promptRes with
  | Except.error e => Except.error e
  | Except.ok kst => Except.ok (apiHeaders callerHs kst.1 reqId, kst.2)

theorem inv_initSt : Inv initSt := by decide

theorem sz_pos (b : Block) : 0 < sz b := Nat.two_pow_pos _

theorem bdisj_symm {a b : Block} (h : BDisj a b) : BDisj b a := Or.symm h

theorem bdisj_irrefl (b : Block) : ¬ BDisj b b := by
  have := sz_pos b
  unfold BDisj
  omega

theorem sub_refl (b : Block) : Sub b b := ⟨le_refl _, le_refl _⟩

theorem sub_trans {a b c : Block} (h1 : Sub a b) (h2 : Sub b c) : Sub a c := by
  unfold Sub at *
  omega

theorem bdisj_mono {a a' b : Block} (hs : Sub a a') (h : BDisj a' b) : BDisj a b := by
  unfold Sub at hs
  unfold BDisj at *
  omega

theorem sub_ne_of_bdisj {a c x : Block} (hs : Sub a c) (hd : BDisj x c) : x ≠ a := by
  intro he
  subst he
  exact bdisj_irrefl x (bdisj_mono hs (bdisj_symm hd) |> bdisj_symm)

theorem aligned_dvd {b : Block} (h : Aligned b) : sz b ∣ b.base :=
  Nat.dvd_iff_mod_eq_zero.mpr h

theorem aligned_of_dvd {b : Block} (h : sz b ∣ b.base) : Aligned b :=
  Nat.dvd_iff_mod_eq_zero.mp h

theorem buddy_len (b : Block) : (buddy b).len = b.len := rfl

theorem parent_len (b : Block) : (parent b).len = b.len - 1 := rfl

theorem sz_buddy (b : Block) : sz (buddy b) = sz b := rfl

theorem sz_parent {b : Block} (h1 : 1 ≤ b.len) (h2 : b.len ≤ 32) :
    sz (parent b) = 2 * sz b := by
  show 2 ^ (32 - (b.len - 1)) = 2 * 2 ^ (32 - b.len)
  have h3 : 32 - (b.len - 1) = (32 - b.len) + 1 := by omega
  rw [h3, pow_succ]
  ring

theorem buddy_eq_pos {b : Block} (hm : b.base % (2 * sz b) = 0) :
    buddy b = ⟨b.base + sz b, b.len⟩ := by
  unfold buddy
  rw [if_pos hm]

theorem buddy_eq_neg {b : Block} (hm : ¬ b.base % (2 * sz b) = 0) :
    buddy b = ⟨b.base - sz b, b.len⟩ := by
  unfold buddy
  rw [if_neg hm]

theorem parent_eq_pos {b : Block} (hm : b.base % (2 * sz b) = 0) :
    parent b = ⟨b.base, b.len - 1⟩ := by
  unfold parent
  rw [if_pos hm]

theorem parent_eq_neg {b : Block} (hm : ¬ b.base % (2 * sz b) = 0) :
    parent b = ⟨b.base - sz b, b.len - 1⟩ := by
  unfold parent
  rw [if_neg hm]

/-- In the upper-half case the base is an odd multiple of the size: the base
is at least one size, the base minus one size is parent-aligned, and adding
the size back is exact. -/
theorem hi_facts {b : Block} (hA : Aligned b) (hm : ¬ b.base % (2 * sz b) = 0) :
    sz b ≤ b.base ∧ (b.base - sz b) % (2 * sz b) = 0 := by
  obtain ⟨k, hk⟩ := aligned_dvd hA
  have hs := sz_pos b
  rcases Nat.even_or_odd k with he | ho
  · obtain ⟨m, hm'⟩ := he
    exfalso
    apply hm
    have h2 : b.base = (2 * sz b) * m := by rw [hk, hm']; ring
    rw [h2]
    exact Nat.mul_mod_right _ _
  · obtain ⟨m, hm'⟩ := ho
    have hbase : b.base = (2 * sz b) * m + sz b := by rw [hk, hm']; ring
    constructor
    · omega
    · have h2 : b.base - sz b = (2 * sz b) * m := by omega
      rw [h2]
      exact Nat.mul_mod_right _ _

/-- In the lower-half case the base plus one size is not parent-aligned. -/
theorem lo_facts {b : Block} (hm : b.base % (2 * sz b) = 0) :
    ¬ (b.base + sz b) % (2 * sz b) = 0 := by
  have hs := sz_pos b
  obtain ⟨j, hj⟩ := Nat.dvd_of_mod_eq_zero hm
  rw [hj]
  have h2 : 2 * sz b * j + sz b = sz b + j * (2 * sz b) := by ring
  rw [h2, Nat.add_mul_mod_self_right, Nat.mod_eq_of_lt (by omega)]
  omega

theorem aligned_buddy {b : Block} (hA : Aligned b) : Aligned (buddy b) := by
  by_cases hm : b.base % (2 * sz b) = 0
  · rw [buddy_eq_pos hm]
    show (b.base + sz b) % sz b = 0
    rw [Nat.add_mod_right]
    exact hA
  · rw [buddy_eq_neg hm]
    show (b.base - sz b) % sz b = 0
    have h2 : 2 * sz b ∣ (b.base - sz b) := Nat.dvd_of_mod_eq_zero (hi_facts hA hm).2
    exact Nat.dvd_iff_mod_eq_zero.mp (dvd_trans (dvd_mul_left (sz b) 2) h2)

theorem buddy_ne {b : Block} (hA : Aligned b) : buddy b ≠ b := by
  have hs := sz_pos b
  by_cases hm : b.base % (2 * sz b) = 0
  · rw [buddy_eq_pos hm]
    intro he
    have h2 : b.base + sz b = b.base := congrArg Block.base he
    omega
  · rw [buddy_eq_neg hm]
    intro he
    have hle := (hi_facts hA hm).1
    have h2 : b.base - sz b = b.base := congrArg Block.base he
    omega

theorem buddy_buddy {b : Block} (hA : Aligned b) : buddy (buddy b) = b := by
  have hs := sz_pos b
  by_cases hm : b.base % (2 * sz b) = 0
  · rw [buddy_eq_pos hm]
    have hm2 : ¬ (b.base + sz b) % (2 * sz b) = 0 := lo_facts hm
    rw [buddy_eq_neg (b := ⟨b.base + sz b, b.len⟩) hm2]
    show (⟨b.base + sz b - sz b, b.len⟩ : Block) = b
    have h2 : b.base + sz b - sz b = b.base := by omega
    rw [h2]
  · obtain ⟨hle, hm2⟩ := hi_facts hA hm
    rw [buddy_eq_neg hm]
    rw [buddy_eq_pos (b := ⟨b.base - sz b, b.len⟩) hm2]
    show (⟨b.base - sz b + sz b, b.len⟩ : Block) = b
    have h2 : b.base - sz b + sz b = b.base := by omega
    rw [h2]

theorem bdisj_buddy {b : Block} (hA : Aligned b) : BDisj b (buddy b) := by
  have hs := sz_pos b
  by_cases hm : b.base % (2 * sz b) = 0
  · rw [buddy_eq_pos hm]
    left
    show b.base + sz b ≤ b.base + sz b
    exact le_refl _
  · rw [buddy_eq_neg hm]
    have hle := (hi_facts hA hm).1
    right
    show b.base - sz b + sz b ≤ b.base
    omega

/-- The exponent identity behind one halving level. -/
theorem sz_parent_key {L : ℕ} (h1 : 1 ≤ L) (h2 : L ≤ 32) :
    2 ^ (32 - (L - 1)) = 2 * 2 ^ (32 - L) := by
  have h3 : 32 - (L - 1) = (32 - L) + 1 := by omega
  rw [h3, pow_succ]
  ring

theorem sub_parent {b : Block} (hA : Aligned b) (h1 : 1 ≤ b.len) (h2 : b.len ≤ 32) :
    Sub b (parent b) := by
  have hs := sz_pos b
  have key : 2 ^ (32 - (b.len - 1)) = 2 * sz b := sz_parent_key h1 h2
  by_cases hm : b.base % (2 * sz b) = 0
  · rw [parent_eq_pos hm]
    exact ⟨le_refl _, by show b.base + sz b ≤ b.base + 2 ^ (32 - (b.len - 1)); rw [key]; omega⟩
  · rw [parent_eq_neg hm]
    have hle := (hi_facts hA hm).1
    constructor
    · show b.base - sz b ≤ b.base
      omega
    · show b.base + sz b ≤ b.base - sz b + 2 ^ (32 - (b.len - 1))
      rw [key]
      omega

theorem sub_buddy_parent {b : Block} (hA : Aligned b) (h1 : 1 ≤ b.len) (h2 : b.len ≤ 32) :
    Sub (buddy b) (parent b) := by
  have hs := sz_pos b
  have key : 2 ^ (32 - (b.len - 1)) = 2 * sz b := sz_parent_key h1 h2
  by_cases hm : b.base % (2 * sz b) = 0
  · rw [buddy_eq_pos hm, parent_eq_pos hm]
    constructor
    · show b.base ≤ b.base + sz b
      omega
    · show b.base + sz b + sz b ≤ b.base + 2 ^ (32 - (b.len - 1))
      rw [key]
      omega
  · rw [buddy_eq_neg hm, parent_eq_neg hm]
    have hle := (hi_facts hA hm).1
    constructor
    · exact le_refl _
    · show b.base - sz b + sz b ≤ b.base - sz b + 2 ^ (32 - (b.len - 1))
      rw [key]
      omega

theorem parent_cover {b y : Block} (hA : Aligned b) (h1 : 1 ≤ b.len) (h2 : b.len ≤ 32)
    (hy1 : BDisj y b) (hy2 : BDisj y (buddy b)) : BDisj y (parent b) := by
  have hs := sz_pos b
  have hsy := sz_pos y
  have key : 2 ^ (32 - (b.len - 1)) = 2 * sz b := sz_parent_key h1 h2
  by_cases hm : b.base % (2 * sz b) = 0
  · rw [buddy_eq_pos hm] at hy2
    rw [parent_eq_pos hm]
    unfold BDisj at *
    show y.base + sz y ≤ b.base ∨ b.base + 2 ^ (32 - (b.len - 1)) ≤ y.base
    rw [key]
    have hy2' : y.base + sz y ≤ b.base + sz b ∨ b.base + sz b + sz b ≤ y.base := hy2
    omega
  · obtain ⟨hle, _⟩ := hi_facts hA hm
    rw [buddy_eq_neg hm] at hy2
    rw [parent_eq_neg hm]
    unfold BDisj at *
    show y.base + sz y ≤ b.base - sz b ∨ b.base - sz b + 2 ^ (32 - (b.len - 1)) ≤ y.base
    rw [key]
    have hy2' : y.base + sz y ≤ b.base - sz b ∨ b.base - sz b + sz b ≤ y.base := hy2
    omega

theorem sub_parent_pool {b P : Block} (hA : Aligned b) (h1 : 1 ≤ b.len) (h2 : b.len ≤ 32)
    (hb : Sub b P) (hbb : Sub (buddy b) P) : Sub (parent b) P := by
  have hs := sz_pos b
  have key : 2 ^ (32 - (b.len - 1)) = 2 * sz b := sz_parent_key h1 h2
  by_cases hm : b.base % (2 * sz b) = 0
  · rw [buddy_eq_pos hm] at hbb
    rw [parent_eq_pos hm]
    unfold Sub at *
    have hbb' : P.base ≤ b.base + sz b ∧ b.base + sz b + sz b ≤ P.base + sz P := hbb
    constructor
    · exact hb.1
    · show b.base + 2 ^ (32 - (b.len - 1)) ≤ P.base + sz P
      rw [key]
      omega
  · obtain ⟨hle, _⟩ := hi_facts hA hm
    rw [buddy_eq_neg hm] at hbb
    rw [parent_eq_neg hm]
    unfold Sub at *
    have hbb' : P.base ≤ b.base - sz b ∧ b.base - sz b + sz b ≤ P.base + sz P := hbb
    constructor
    · exact hbb'.1
    · show b.base - sz b + 2 ^ (32 - (b.len - 1)) ≤ P.base + sz P
      rw [key]
      omega

theorem aligned_parent {b : Block} (hA : Aligned b) (h1 : 1 ≤ b.len) (h2 : b.len ≤ 32) :
    Aligned (parent b) := by
  have key : 2 ^ (32 - (b.len - 1)) = 2 * sz b := sz_parent_key h1 h2
  by_cases hm : b.base % (2 * sz b) = 0
  · rw [parent_eq_pos hm]
    show b.base % 2 ^ (32 - (b.len - 1)) = 0
    rw [key]
    exact hm
  · rw [parent_eq_neg hm]
    show (b.base - sz b) % 2 ^ (32 - (b.len - 1)) = 0
    rw [key]
    exact (hi_facts hA hm).2

theorem sz_loHalf (c : Block) : sz (loHalf c) = 2 ^ (31 - c.len) := by
  show 2 ^ (32 - (c.len + 1)) = 2 ^ (31 - c.len)
  congr 1
  omega

theorem sz_hiHalf (c : Block) : sz (hiHalf c) = 2 ^ (31 - c.len) := by
  show 2 ^ (32 - (c.len + 1)) = 2 ^ (31 - c.len)
  congr 1
  omega

theorem sz_split {c : Block} (h31 : c.len ≤ 31) : sz c = 2 * 2 ^ (31 - c.len) := by
  show 2 ^ (32 - c.len) = 2 * 2 ^ (31 - c.len)
  rw [show 32 - c.len = (31 - c.len) + 1 by omega, pow_succ]
  ring

theorem aligned_fst {c : Block} {m : ℕ} (hA : Aligned c) (h : c.len ≤ m) :
    Aligned ⟨c.base, m⟩ :=
  aligned_of_dvd (dvd_trans (pow_dvd_pow 2 (by omega : 32 - m ≤ 32 - c.len)) (aligned_dvd hA))

theorem sub_fst {c : Block} {m : ℕ} (h : c.len ≤ m) : Sub ⟨c.base, m⟩ c := by
  constructor
  · exact le_refl _
  · show c.base + 2 ^ (32 - m) ≤ c.base + 2 ^ (32 - c.len)
    exact Nat.add_le_add_left (Nat.pow_le_pow_right (by norm_num) (by omega)) c.base

theorem aligned_loHalf {c : Block} (hA : Aligned c) : Aligned (loHalf c) :=
  aligned_of_dvd
    (dvd_trans (pow_dvd_pow 2 (by omega : 32 - (c.len + 1) ≤ 32 - c.len)) (aligned_dvd hA))

theorem aligned_hiHalf {c : Block} (hA : Aligned c) (h31 : c.len ≤ 31) :
    Aligned (hiHalf c) := by
  unfold Aligned
  rw [sz_hiHalf]
  show (c.base + 2 ^ (31 - c.len)) % 2 ^ (31 - c.len) = 0
  rw [Nat.add_mod_right]
  exact Nat.dvd_iff_mod_eq_zero.mp
    (dvd_trans (pow_dvd_pow 2 (by omega : 31 - c.len ≤ 32 - c.len)) (aligned_dvd hA))

theorem bdisj_halves (c : Block) : BDisj (loHalf c) (hiHalf c) := by
  left
  rw [sz_loHalf]
  show c.base + 2 ^ (31 - c.len) ≤ c.base + 2 ^ (31 - c.len)
  exact le_refl _

theorem sub_loHalf {c : Block} (h31 : c.len ≤ 31) : Sub (loHalf c) c := by
  constructor
  · exact le_refl _
  · rw [sz_loHalf]
    show c.base + 2 ^ (31 - c.len) ≤ c.base + sz c
    rw [sz_split h31]
    have := Nat.two_pow_pos (31 - c.len)
    omega

theorem sub_hiHalf {c : Block} (h31 : c.len ≤ 31) : Sub (hiHalf c) c := by
  constructor
  · show c.base ≤ c.base + 2 ^ (31 - c.len)
    exact Nat.le_add_right _ _
  · rw [sz_hiHalf]
    show c.base + 2 ^ (31 - c.len) + 2 ^ (31 - c.len) ≤ c.base + sz c
    rw [sz_split h31]
    omega

theorem buddy_loHalf {c : Block} (hA : Aligned c) (h31 : c.len ≤ 31) :
    buddy (loHalf c) = hiHalf c := by
  have hm : (loHalf c).base % (2 * sz (loHalf c)) = 0 := by
    have h2 : 2 * sz (loHalf c) = sz c := by
      rw [sz_loHalf]
      exact (sz_split h31).symm
    rw [h2]
    exact hA
  rw [buddy_eq_pos hm]
  show (⟨c.base + sz (loHalf c), c.len + 1⟩ : Block) = hiHalf c
  rw [sz_loHalf]
  rfl

theorem parent_loHalf {c : Block} (hA : Aligned c) (h31 : c.len ≤ 31) :
    parent (loHalf c) = c := by
  have hm : (loHalf c).base % (2 * sz (loHalf c)) = 0 := by
    have h2 : 2 * sz (loHalf c) = sz c := by
      rw [sz_loHalf]
      exact (sz_split h31).symm
    rw [h2]
    exact hA
  rw [parent_eq_pos hm]
  rfl

theorem buddy_hiHalf {c : Block} (hA : Aligned c) (h31 : c.len ≤ 31) :
    buddy (hiHalf c) = loHalf c := by
  have h2 := buddy_loHalf hA h31
  have h3 := buddy_buddy (aligned_loHalf hA)
  rw [h2] at h3
  exact h3

theorem splitTo_fst (n : ℕ) : ∀ c : Block, (splitTo n c).1 = ⟨c.base, c.len + n⟩ := by
  induction n with
  | zero => intro c; rfl
  | succ n ih =>
    intro c
    show (splitTo n (loHalf c)).1 = _
    rw [ih (loHalf c)]
    rw [Block.mk.injEq]
    exact ⟨rfl, by show c.len + 1 + n = c.len + (n + 1); omega⟩

theorem splitTo_sibs_len (n : ℕ) :
    ∀ c : Block, ∀ s ∈ (splitTo n c).2, c.len < s.len := by
  induction n with
  | zero => intro c s hs; simp [splitTo] at hs
  | succ n ih =>
    intro c s hs
    have hs' : s ∈ hiHalf c :: (splitTo n (loHalf c)).2 := hs
    rcases List.mem_cons.mp hs' with rfl | hmem
    · show c.len < c.len + 1
      omega
    · have := ih (loHalf c) s hmem
      have h2 : c.len + 1 < s.len := this
      omega

theorem splitTo_len_sorted (n : ℕ) :
    ∀ c : Block, ((splitTo n c).2).Pairwise (fun a b => a.len < b.len) := by
  induction n with
  | zero => intro c; simp [splitTo]
  | succ n ih =>
    intro c
    show (hiHalf c :: (splitTo n (loHalf c)).2).Pairwise _
    rw [List.pairwise_cons]
    constructor
    · intro s hs
      have := splitTo_sibs_len n (loHalf c) s hs
      have h2 : c.len + 1 < s.len := this
      show (hiHalf c).len < s.len
      exact h2
    · exact ih (loHalf c)

theorem splitTo_sibs (n : ℕ) :
    ∀ c : Block, Aligned c → c.len + n ≤ 32 →
      ∀ s ∈ (splitTo n c).2,
        Aligned s ∧ Sub s c ∧ Sub (buddy s) c ∧ c.len < s.len ∧ s.len ≤ c.len + n := by
  induction n with
  | zero => intro c _ _ s hs; simp [splitTo] at hs
  | succ n ih =>
    intro c hA h32 s hs
    have h31 : c.len ≤ 31 := by omega
    have hs' : s ∈ hiHalf c :: (splitTo n (loHalf c)).2 := hs
    rcases List.mem_cons.mp hs' with rfl | hmem
    · refine ⟨aligned_hiHalf hA h31, sub_hiHalf h31, ?_, ?_, ?_⟩
      · rw [buddy_hiHalf hA h31]
        exact sub_loHalf h31
      · show c.len < c.len + 1
        omega
      · show c.len + 1 ≤ c.len + (n + 1)
        omega
    · have hb : (loHalf c).len + n ≤ 32 := by
        show c.len + 1 + n ≤ 32
        omega
      obtain ⟨a1, a2, a3, a4, a5⟩ := ih (loHalf c) (aligned_loHalf hA) hb s hmem
      have a4' : c.len + 1 < s.len := a4
      have a5' : s.len ≤ c.len + 1 + n := a5
      exact ⟨a1, sub_trans a2 (sub_loHalf h31), sub_trans a3 (sub_loHalf h31),
        by omega, by omega⟩

theorem splitTo_pairwise (n : ℕ) :
    ∀ c : Block, Aligned c → c.len + n ≤ 32 →
      ((splitTo n c).1 :: (splitTo n c).2).Pairwise BDisj := by
  induction n with
  | zero => intro c _ _; simp [splitTo]
  | succ n ih =>
    intro c hA h32
    have h31 : c.len ≤ 31 := by omega
    have hb : (loHalf c).len + n ≤ 32 := by
      show c.len + 1 + n ≤ 32
      omega
    have ihp := ih (loHalf c) (aligned_loHalf hA) hb
    rw [List.pairwise_cons] at ihp
    obtain ⟨hrs, hsp⟩ := ihp
    have hrlo : Sub (splitTo n (loHalf c)).1 (loHalf c) := by
      rw [splitTo_fst n (loHalf c)]
      exact sub_fst (by show (loHalf c).len ≤ (loHalf c).len + n; omega)
    show ((splitTo n (loHalf c)).1 :: hiHalf c :: (splitTo n (loHalf c)).2).Pairwise BDisj
    rw [List.pairwise_cons, List.pairwise_cons]
    refine ⟨?_, ?_, hsp⟩
    · intro s hs
      rcases List.mem_cons.mp hs with rfl | hmem
      · exact bdisj_mono hrlo (bdisj_halves c)
      · exact hrs s hmem
    · intro s hs
      have hsub : Sub s (loHalf c) :=
        (splitTo_sibs n (loHalf c) (aligned_loHalf hA) hb s hs).2.1
      exact bdisj_symm (bdisj_mono hsub (bdisj_halves c))

/-- Inserting a block that is disjoint from a well-formed free set, whose
buddy is absent (or which sits at the pool boundary), preserves the free-set
invariants. -/
theorem insert_inv (P : Block) (fs : Finset Block) (b : Block)
    (hwf : ∀ x ∈ fs, WF P x) (hdisj : ∀ x ∈ fs, ∀ y ∈ fs, x ≠ y → BDisj x y)
    (hco : ∀ x ∈ fs, P.len < x.len → buddy x ∉ fs)
    (hbwf : WF P b) (hbd : ∀ x ∈ fs, BDisj b x)
    (hstop : b.len ≤ P.len ∨ buddy b ∉ fs) :
    (∀ x ∈ insert b fs, WF P x) ∧
    (∀ x ∈ insert b fs, ∀ y ∈ insert b fs, x ≠ y → BDisj x y) ∧
    (∀ x ∈ insert b fs, P.len < x.len → buddy x ∉ insert b fs) ∧
    (∀ y : Block, BDisj y b → (∀ x ∈ fs, BDisj y x) → ∀ x ∈ insert b fs, BDisj y x) := by
  refine ⟨?_, ?_, ?_, ?_⟩
  · intro x hx
    rcases Finset.mem_insert.mp hx with rfl | hmem
    · exact hbwf
    · exact hwf x hmem
  · intro x hx y hy hne
    rcases Finset.mem_insert.mp hx with rfl | hmx <;>
      rcases Finset.mem_insert.mp hy with h | hmy
    · exact absurd h.symm hne
    · exact hbd y hmy
    · subst h
      exact bdisj_symm (hbd x hmx)
    · exact hdisj x hmx y hmy hne
  · intro x hx hl hcontra
    rcases Finset.mem_insert.mp hx with rfl | hmx
    · rcases Finset.mem_insert.mp hcontra with he | hmem
      · exact buddy_ne hbwf.1 he
      · rcases hstop with h | h
        · omega
        · exact h hmem
    · rcases Finset.mem_insert.mp hcontra with he | hmem
      · have hx2 := buddy_buddy (hwf x hmx).1
        rw [he] at hx2
        rcases hstop with h | h
        · have hlen : (buddy b).len = b.len := buddy_len b
          rw [hx2] at hlen
          omega
        · rw [← hx2] at hmx
          exact h hmx
      · exact hco x hmx hl hmem
  · intro y hyb hyfs x hx
    rcases Finset.mem_insert.mp hx with rfl | hmx
    · exact hyb
    · exact hyfs x hmx

/-- Main coalescing lemma: `coalesceF` preserves the free-set invariants and
keeps the new free set inside the old free space plus the freed block. -/
theorem coalesceF_inv (P : Block) :
    ∀ (fuel : ℕ) (fs : Finset Block) (b : Block),
      (∀ x ∈ fs, WF P x) → (∀ x ∈ fs, ∀ y ∈ fs, x ≠ y → BDisj x y) →
      (∀ x ∈ fs, P.len < x.len → buddy x ∉ fs) →
      WF P b → (∀ x ∈ fs, BDisj b x) → b.len ≤ fuel + P.len →
      (∀ x ∈ coalesceF P.len fuel fs b, WF P x) ∧
      (∀ x ∈ coalesceF P.len fuel fs b, ∀ y ∈ coalesceF P.len fuel fs b, x ≠ y → BDisj x y) ∧
      (∀ x ∈ coalesceF P.len fuel fs b, P.len < x.len → buddy x ∉ coalesceF P.len fuel fs b) ∧
      (∀ y : Block, BDisj y b → (∀ x ∈ fs, BDisj y x) →
        ∀ x ∈ coalesceF P.len fuel fs b, BDisj y x) := by
  intro fuel
  induction fuel with
  | zero =>
    intro fs b hwf hdisj hco hbwf hbd hfuel
    have hstop : b.len ≤ P.len ∨ buddy b ∉ fs := Or.inl (by omega)
    exact insert_inv P fs b hwf hdisj hco hbwf hbd hstop
  | succ fuel ih =>
    intro fs b hwf hdisj hco hbwf hbd hfuel
    by_cases h1 : b.len ≤ P.len
    · have hrw : coalesceF P.len (fuel + 1) fs b = insert b fs := by
        simp only [coalesceF, if_pos h1]
      rw [hrw]
      exact insert_inv P fs b hwf hdisj hco hbwf hbd (Or.inl h1)
    · by_cases h2 : buddy b ∈ fs
      · have hrw : coalesceF P.len (fuel + 1) fs b =
            coalesceF P.len fuel (fs.erase (buddy b)) (parent b) := by
          simp only [coalesceF, if_neg h1, if_pos h2]
        have hA : Aligned b := hbwf.1
        have hlen1 : 1 ≤ b.len := by omega
        have h32 : b.len ≤ 32 := hbwf.2.2.2
        have hbud := hwf (buddy b) h2
        have hwf' : ∀ x ∈ fs.erase (buddy b), WF P x :=
          fun x hx => hwf x (Finset.mem_of_mem_erase hx)
        have hdisj' : ∀ x ∈ fs.erase (buddy b), ∀ y ∈ fs.erase (buddy b), x ≠ y → BDisj x y :=
          fun x hx y hy => hdisj x (Finset.mem_of_mem_erase hx) y (Finset.mem_of_mem_erase hy)
        have hco' : ∀ x ∈ fs.erase (buddy b), P.len < x.len →
            buddy x ∉ fs.erase (buddy b) := by
          intro x hx hl hmem
          exact hco x (Finset.mem_of_mem_erase hx) hl (Finset.mem_of_mem_erase hmem)
        have hpwf : WF P (parent b) := by
          refine ⟨aligned_parent hA hlen1 h32, sub_parent_pool hA hlen1 h32 hbwf.2.1 hbud.2.1,
            ?_, ?_⟩
          · show P.len ≤ b.len - 1
            omega
          · show b.len - 1 ≤ 32
            omega
        have hbd' : ∀ x ∈ fs.erase (buddy b), BDisj (parent b) x := by
          intro x hx
          obtain ⟨hne, hmem⟩ := Finset.mem_erase.mp hx
          exact bdisj_symm (parent_cover hA hlen1 h32 (bdisj_symm (hbd x hmem))
            (hdisj x hmem (buddy b) h2 hne))
        have hfuel' : (parent b).len ≤ fuel + P.len := by
          show b.len - 1 ≤ fuel + P.len
          omega
        obtain ⟨i1, i2, i3, i4⟩ :=
          ih (fs.erase (buddy b)) (parent b) hwf' hdisj' hco' hpwf hbd' hfuel'
        rw [hrw]
        refine ⟨i1, i2, i3, ?_⟩
        intro y hyb hyfs x hx
        have hyp : BDisj y (parent b) :=
          parent_cover hA hlen1 h32 hyb (hyfs (buddy b) h2)
        exact i4 y hyp (fun z hz => hyfs z (Finset.mem_of_mem_erase hz)) x hx
      · have hrw : coalesceF P.len (fuel + 1) fs b = insert b fs := by
          simp only [coalesceF, if_neg h1, if_neg h2, ite_self]
        rw [hrw]
        exact insert_inv P fs b hwf hdisj hco hbwf hbd (Or.inr h2)

/-- Modelled from the spec, Release correctness: releasing a block disjoint
from the free space preserves the free-set invariants, and every new free
block lies inside the old free space plus the freed block. -/
theorem release_spec (P : Block) (fs : Finset Block) (b : Block)
    (hf : FreeInv P fs) (hbwf : WF P b) (hbd : ∀ x ∈ fs, BDisj b x) :
    FreeInv P (release P.len fs b) ∧
    (∀ y : Block, BDisj y b → (∀ x ∈ fs, BDisj y x) →
      ∀ x ∈ release P.len fs b, BDisj y x) := by
  obtain ⟨h1, h2, h3⟩ := hf
  have h := coalesceF_inv P b.len fs b h1 h2 h3 hbwf hbd (by omega)
  exact ⟨⟨h.1, h.2.1, h.2.2.1⟩, h.2.2.2⟩

/-- Coalescing a reserved sub-block against the split siblings undoes the
split: the merge chain climbs exactly back to the block that was split. -/
theorem coalesceF_split (pl : ℕ) :
    ∀ (n : ℕ) (c : Block) (F : Finset Block),
      Aligned c → c.len + n ≤ 32 → pl ≤ c.len →
      (∀ x ∈ F, BDisj x c) →
      coalesceF pl (c.len + n) (F ∪ (splitTo n c).2.toFinset) (splitTo n c).1 =
        coalesceF pl c.len F c := by
  intro n
  induction n with
  | zero =>
    intro c F _ _ _ _
    simp [splitTo]
  | succ n ih =>
    intro c F hA h32 hpl hF
    have h31 : c.len ≤ 31 := by omega
    have hF' : ∀ x ∈ insert (hiHalf c) F, BDisj x (loHalf c) := by
      intro x hx
      rcases Finset.mem_insert.mp hx with rfl | hmem
      · exact bdisj_symm (bdisj_halves c)
      · exact bdisj_mono (sub_loHalf h31) (bdisj_symm (hF x hmem)) |> bdisj_symm
    have ihe : coalesceF pl (c.len + 1 + n)
        (insert (hiHalf c) F ∪ (splitTo n (loHalf c)).2.toFinset)
        (splitTo n (loHalf c)).1 =
        coalesceF pl (c.len + 1) (insert (hiHalf c) F) (loHalf c) :=
      ih (loHalf c) (insert (hiHalf c) F) (aligned_loHalf hA)
        (by show c.len + 1 + n ≤ 32; omega) (by show pl ≤ c.len + 1; omega) hF'
    have e1 : F ∪ (splitTo (n + 1) c).2.toFinset =
        insert (hiHalf c) F ∪ (splitTo n (loHalf c)).2.toFinset := by
      show F ∪ (hiHalf c :: (splitTo n (loHalf c)).2).toFinset = _
      rw [List.toFinset_cons, Finset.union_insert, Finset.insert_union]
    have e2 : c.len + (n + 1) = c.len + 1 + n := by omega
    have hstep : coalesceF pl (c.len + 1) (insert (hiHalf c) F) (loHalf c) =
        coalesceF pl c.len ((insert (hiHalf c) F).erase (hiHalf c)) (parent (loHalf c)) := by
      have hc1 : ¬ ((loHalf c).len ≤ pl) := by
        show ¬ (c.len + 1 ≤ pl)
        omega
      have hc2 : buddy (loHalf c) ∈ insert (hiHalf c) F := by
        rw [buddy_loHalf hA h31]
        exact Finset.mem_insert_self _ _
      simp only [coalesceF, if_neg hc1, if_pos hc2]
      rw [buddy_loHalf hA h31]
    have hnotF : hiHalf c ∉ F := by
      intro hmem
      exact bdisj_irrefl (hiHalf c) (bdisj_mono (sub_hiHalf h31) (bdisj_symm (hF _ hmem)))
    show coalesceF pl (c.len + (n + 1))
        (F ∪ (splitTo (n + 1) c).2.toFinset) (splitTo n (loHalf c)).1 =
        coalesceF pl c.len F c
    rw [e1, e2, ihe, hstep, Finset.erase_insert hnotF, parent_loHalf hA h31]

/-- Re-inserting a block that was just removed from a coalesced free set
coalesces no further: the free set is restored exactly. -/
theorem coalesceF_self (pl : ℕ) (fs : Finset Block) (c : Block)
    (hmem : c ∈ fs) (hpl : pl ≤ c.len) (hco : pl < c.len → buddy c ∉ fs) :
    coalesceF pl c.len (fs.erase c) c = fs := by
  cases hc : c.len with
  | zero =>
    show insert c (fs.erase c) = fs
    exact Finset.insert_erase hmem
  | succ m =>
    by_cases h1 : c.len ≤ pl
    · simp only [coalesceF, if_pos h1]
      exact Finset.insert_erase hmem
    · have h2 : buddy c ∉ fs.erase c := by
        intro hmem'
        exact hco (by omega) (Finset.mem_of_mem_erase hmem')
      simp only [coalesceF, if_neg h1, if_neg h2, ite_self]
      exact Finset.insert_erase hmem

theorem unkey_keyOf {b : Block} (h1 : b.base < 2 ^ 32) (h2 : b.len ≤ 32) :
    unkey (keyOf b) = b := by
  have e : keyOf b = 2 ^ 32 * (32 - b.len) + b.base := by
    unfold keyOf
    ring
  unfold unkey
  rw [e, Block.mk.injEq]
  constructor
  · rw [Nat.mul_add_mod]
    exact Nat.mod_eq_of_lt h1
  · rw [Nat.mul_add_div (Nat.two_pow_pos 32), Nat.div_eq_of_lt h1]
    omega

theorem wf_bounds {P x : Block} (hP : GoodPool P) (h : WF P x) :
    x.base < 2 ^ 32 ∧ x.len ≤ 32 := by
  obtain ⟨_, ⟨hb1, hb2⟩, _, h32⟩ := h
  obtain ⟨_, _, hP3⟩ := hP
  have := sz_pos x
  exact ⟨by omega, h32⟩

theorem bestFit_mem {fs : Finset Block} {p : ℕ} {c : Block}
    (hb : ∀ x ∈ fs, x.base < 2 ^ 32 ∧ x.len ≤ 32) (h : bestFit fs p = some c) :
    c ∈ fs ∧ c.len ≤ p := by
  simp only [bestFit] at h
  split at h
  case isTrue hne =>
    have hc := Option.some.inj h
    have hmem := Finset.min'_mem _ hne
    rw [Finset.mem_image] at hmem
    obtain ⟨b, hbf, hkey⟩ := hmem
    rw [Finset.mem_filter] at hbf
    rw [← hkey, unkey_keyOf (hb b hbf.1).1 (hb b hbf.1).2] at hc
    rw [← hc]
    exact hbf
  case isFalse => cases h

theorem reserve_some {fs : Finset Block} {p : ℕ} {r : Block} {fs' : Finset Block}
    (h : reserve fs p = some (r, fs')) :
    ∃ c, bestFit fs p = some c ∧ r = (splitTo (p - c.len) c).1 ∧
      fs' = fs.erase c ∪ (splitTo (p - c.len) c).2.toFinset := by
  unfold reserve at h
  cases hbf : bestFit fs p with
  | none =>
    rw [hbf] at h
    cases h
  | some c =>
    rw [hbf] at h
    have h2 := Option.some.inj h
    rw [Prod.mk.injEq] at h2
    exact ⟨c, rfl, h2.1.symm, h2.2.symm⟩

/-- Lengths in a strictly sorted list are distinct between distinct
members. -/
theorem pairwise_lt_ne {l : List Block} (h : l.Pairwise (fun a b => a.len < b.len))
    {a b : Block} (ha : a ∈ l) (hb : b ∈ l) (hne : a ≠ b) : a.len ≠ b.len := by
  induction l with
  | nil => cases ha
  | cons x t ih =>
    rw [List.pairwise_cons] at h
    rcases List.mem_cons.mp ha with rfl | hat <;> rcases List.mem_cons.mp hb with h2 | hbt
    · exact absurd h2.symm hne
    · have := h.1 b hbt
      omega
    · subst h2
      have := h.1 a hat
      omega
    · exact ih h.2 hat hbt

/-- Modelled from the spec, Reserve correctness: a successful reservation
preserves the free-set invariants, returns a well-formed block of the
requested prefix length disjoint from the new free set, and stays within the
old free space. -/
theorem reserve_spec (P : Block) (hP : GoodPool P) (fs : Finset Block) (p : ℕ)
    (r : Block) (fs' : Finset Block) (hf : FreeInv P fs) (hpl : P.len ≤ p) (hp32 : p ≤ 32)
    (hres : reserve fs p = some (r, fs')) :
    FreeInv P fs' ∧ WF P r ∧ r.len = p ∧ (∀ x ∈ fs', BDisj r x) ∧
    (∀ y : Block, (∀ x ∈ fs, BDisj y x) → BDisj y r ∧ ∀ x ∈ fs', BDisj y x) := by
  obtain ⟨c, hbf, hr, hfs'⟩ := reserve_some hres
  obtain ⟨hwf, hdisj, hco⟩ := hf
  have hbnd : ∀ x ∈ fs, x.base < 2 ^ 32 ∧ x.len ≤ 32 := fun x hx => wf_bounds hP (hwf x hx)
  obtain ⟨hcmem, hclep⟩ := bestFit_mem hbnd hbf
  have hcwf := hwf c hcmem
  have hcn : c.len + (p - c.len) = p := by omega
  have hsibs := splitTo_sibs (p - c.len) c hcwf.1 (by omega)
  have hsorted := splitTo_len_sorted (p - c.len) c
  have hpair := splitTo_pairwise (p - c.len) c hcwf.1 (by omega)
  have hrval : r = ⟨c.base, p⟩ := by
    rw [hr, splitTo_fst, Block.mk.injEq]
    exact ⟨rfl, hcn⟩
  have hsubrc : Sub r c := by
    rw [hrval]
    exact sub_fst hclep
  have hmem' : ∀ x, x ∈ fs' ↔ (x ∈ fs ∧ x ≠ c) ∨ x ∈ (splitTo (p - c.len) c).2 := by
    intro x
    rw [hfs', Finset.mem_union, Finset.mem_erase, List.mem_toFinset]
    tauto
  have hrlen : r.len = p := by
    rw [hrval]
  have hrwf : WF P r := by
    refine ⟨?_, sub_trans hsubrc hcwf.2.1, ?_, ?_⟩
    · rw [hrval]
      exact aligned_fst hcwf.1 hclep
    · rw [hrlen]
      exact hpl
    · rw [hrlen]
      exact hp32
  have hwf' : ∀ x ∈ fs', WF P x := by
    intro x hx
    rcases (hmem' x).mp hx with ⟨hxm, _⟩ | hxs
    · exact hwf x hxm
    · obtain ⟨hsA, hsub, _, hlt, hle⟩ := hsibs x hxs
      refine ⟨hsA, sub_trans hsub hcwf.2.1, ?_, ?_⟩
      · have := hcwf.2.2.1
        omega
      · omega
  have hold : ∀ x ∈ fs, x ≠ c → BDisj x c := fun x hx hne => hdisj x hx c hcmem hne
  have hdisj' : ∀ x ∈ fs', ∀ y ∈ fs', x ≠ y → BDisj x y := by
    intro x hx y hy hne
    rcases (hmem' x).mp hx with ⟨hxm, hxne⟩ | hxs <;>
      rcases (hmem' y).mp hy with ⟨hym, hyne⟩ | hys
    · exact hdisj x hxm y hym hne
    · have hysub := (hsibs y hys).2.1
      exact bdisj_symm (bdisj_mono hysub (bdisj_symm (hold x hxm hxne)))
    · have hxsub := (hsibs x hxs).2.1
      exact bdisj_mono hxsub (bdisj_symm (hold y hym hyne))
    · have htail := (List.pairwise_cons.mp hpair).2
      exact List.Pairwise.forall (fun a b h => bdisj_symm h) htail hxs hys hne
  have hco' : ∀ x ∈ fs', P.len < x.len → buddy x ∉ fs' := by
    intro x hx hl hcontra
    rcases (hmem' x).mp hx with ⟨hxm, hxne⟩ | hxs <;>
      rcases (hmem' (buddy x)).mp hcontra with ⟨hbm, hbne⟩ | hbs
    · exact hco x hxm hl hbm
    · have hsubb := (hsibs (buddy x) hbs).2.2.1
      rw [buddy_buddy (hwf x hxm).1] at hsubb
      exact bdisj_irrefl x (bdisj_mono hsubb (bdisj_symm (hold x hxm hxne)))
    · have hsubb := (hsibs x hxs).2.2.1
      exact bdisj_irrefl (buddy x) (bdisj_mono hsubb (bdisj_symm (hold (buddy x) hbm hbne)))
    · have hxA := (hsibs x hxs).1
      have hne := buddy_ne hxA
      have := pairwise_lt_ne hsorted hbs hxs hne
      rw [buddy_len] at this
      exact this rfl
  have hrd : ∀ x ∈ fs', BDisj r x := by
    intro x hx
    rcases (hmem' x).mp hx with ⟨hxm, hxne⟩ | hxs
    · exact bdisj_mono hsubrc (bdisj_symm (hold x hxm hxne))
    · have hhead := (List.pairwise_cons.mp hpair).1
      have := hhead x hxs
      rw [← hr] at this
      exact this
  refine ⟨⟨hwf', hdisj', hco'⟩, hrwf, hrlen, hrd, ?_⟩
  intro y hy
  constructor
  · exact bdisj_symm (bdisj_mono hsubrc (bdisj_symm (hy c hcmem)))
  · intro x hx
    rcases (hmem' x).mp hx with ⟨hxm, _⟩ | hxs
    · exact hy x hxm
    · have hxsub := (hsibs x hxs).2.1
      exact bdisj_symm (bdisj_mono hxsub (bdisj_symm (hy c hcmem)))

/-- Modelled from the spec, the Reserve/Release round trip: releasing a block
immediately after reserving it restores the free set exactly. -/
theorem reserve_release (P : Block) (hP : GoodPool P) (fs : Finset Block) (p : ℕ)
    (r : Block) (fs' : Finset Block) (hf : FreeInv P fs) (hpl : P.len ≤ p) (hp32 : p ≤ 32)
    (hres : reserve fs p = some (r, fs')) : release P.len fs' r = fs := by
  obtain ⟨c, hbf, hr, hfs'⟩ := reserve_some hres
  obtain ⟨hwf, hdisj, hco⟩ := hf
  have hbnd : ∀ x ∈ fs, x.base < 2 ^ 32 ∧ x.len ≤ 32 := fun x hx => wf_bounds hP (hwf x hx)
  obtain ⟨hcmem, hclep⟩ := bestFit_mem hbnd hbf
  have hcwf := hwf c hcmem
  have hrl : (splitTo (p - c.len) c).1.len = c.len + (p - c.len) := by
    rw [splitTo_fst]
  rw [hr, hfs']
  unfold release
  rw [hrl]
  have hsplit := coalesceF_split P.len (p - c.len) c (fs.erase c) hcwf.1
    (by omega) hcwf.2.2.1
    (fun x hx => hdisj x (Finset.mem_of_mem_erase hx) c hcmem (Finset.ne_of_mem_erase hx))
  rw [hsplit]
  exact coalesceF_self P.len fs c hcmem hcwf.2.2.1 (fun h => hco c hcmem h)

theorem good_primary : GoodPool primaryPool := by decide

theorem good_cgnat : GoodPool cgnatPool := by decide

theorem resolveHosts_bounds {n p : ℕ} (h : resolveHosts n = some p) :
    20 ≤ p ∧ p ≤ 26 := by
  unfold resolveHosts at h
  split_ifs at h <;> cases h <;> omega

theorem resolve_bounds {req : SizingReq} {p : ℕ} (h : resolve req = some p) :
    20 ≤ p ∧ p ≤ 26 := by
  cases req with
  | hosts n => exact resolveHosts_bounds h
  | plen q =>
    have h' : (if 20 ≤ q ∧ q ≤ 26 then some q else none) = some p := h
    split_ifs at h' with hq
    injection h' with h2
    omega

theorem cgnatOf_eq {p : ℕ} (h1 : 20 ≤ p) (h2 : p ≤ 26) :
    cgnatOf p = p - 5 ∧ 15 ≤ p - 5 ∧ p - 5 ≤ 21 := by
  unfold cgnatOf clampTo
  omega

theorem alloc_rel_symm :
    Symmetric (fun a b : Alloc => BDisj a.pblk b.pblk ∧ BDisj a.cblk b.cblk) :=
  fun _ _ h => ⟨bdisj_symm h.1, bdisj_symm h.2⟩

/-- Modelled from the spec: every ledger operation preserves the engine-state
invariant. -/
theorem step_inv {s : St} (h : Inv s) (op : Op) : Inv (step s op) := by
  obtain ⟨hFP, hFC, hAwf, hApd, hAFP, hAFC, hIds, hIdLt⟩ := h
  have hPlen : primaryPool.len = 16 := rfl
  have hClen : cgnatPool.len = 10 := rfl
  cases op with
  | create vpc req =>
    cases hres : resolve req with
    | none =>
      simp only [step, hres]
      exact ⟨hFP, hFC, hAwf, hApd, hAFP, hAFC, hIds, hIdLt⟩
    | some p =>
      obtain ⟨hp20, hp26⟩ := resolve_bounds hres
      obtain ⟨hcg, hcg15, hcg21⟩ := cgnatOf_eq hp20 hp26
      have hplP : primaryPool.len ≤ p := by omega
      have hp32 : p ≤ 32 := by omega
      have hplC : cgnatPool.len ≤ cgnatOf p := by omega
      have hc32 : cgnatOf p ≤ 32 := by omega
      cases hrp : reserve s.freeP p with
      | none =>
        simp only [step, hres, hrp]
        exact ⟨hFP, hFC, hAwf, hApd, hAFP, hAFC, hIds, hIdLt⟩
      | some bf =>
        cases hrc : reserve s.freeC (cgnatOf p) with
        | none =>
          simp only [step, hres, hrp, hrc]
          have hround :=
            reserve_release primaryPool good_primary s.freeP p bf.1 bf.2 hFP hplP hp32
              (by rw [hrp])
          rw [hround]
          exact ⟨hFP, hFC, hAwf, hApd, hAFP, hAFC, hIds, hIdLt⟩
        | some cf =>
          simp only [step, hres, hrp, hrc]
          obtain ⟨hFP', hPwf, hPlen', hPrd, hPframe⟩ :=
            reserve_spec primaryPool good_primary s.freeP p bf.1 bf.2 hFP hplP hp32
              (by rw [hrp])
          obtain ⟨hFC', hCwf, hClen', hCrd, hCframe⟩ :=
            reserve_spec cgnatPool good_cgnat s.freeC (cgnatOf p) cf.1 cf.2 hFC hplC hc32
              (by rw [hrc])
          refine ⟨hFP', hFC', ?_, ?_, ?_, ?_, ?_, ?_⟩
          · intro a ha
            rcases List.mem_cons.mp ha with rfl | hmem
            · exact ⟨hPwf, hCwf⟩
            · exact hAwf a hmem
          · rw [List.pairwise_cons]
            constructor
            · intro b hb
              constructor
              · exact bdisj_symm (hPframe b.pblk (hAFP b hb)).1
              · exact bdisj_symm (hCframe b.cblk (hAFC b hb)).1
            · exact hApd
          · intro a ha x hx
            rcases List.mem_cons.mp ha with rfl | hmem
            · exact hPrd x hx
            · exact (hPframe a.pblk (hAFP a hmem)).2 x hx
          · intro a ha x hx
            rcases List.mem_cons.mp ha with rfl | hmem
            · exact hCrd x hx
            · exact (hCframe a.cblk (hAFC a hmem)).2 x hx
          · rw [List.pairwise_cons]
            constructor
            · intro b hb
              have := hIdLt b hb
              show s.nextId ≠ b.aid
              omega
            · exact hIds
          · intro a ha
            rcases List.mem_cons.mp ha with rfl | hmem
            · show s.nextId < s.nextId + 1
              omega
            · have := hIdLt a hmem
              show a.aid < s.nextId + 1
              omega
  | del aid =>
    cases hfind : s.allocs.find? (fun a => decide (a.aid = aid)) with
    | none =>
      simp only [step, hfind]
      exact ⟨hFP, hFC, hAwf, hApd, hAFP, hAFC, hIds, hIdLt⟩
    | some a =>
      simp only [step, hfind]
      have hamem : a ∈ s.allocs := List.mem_of_find?_eq_some hfind
      have haid2 := List.find?_some hfind
      have haid : a.aid = aid := by simpa using haid2
      have hawf := hAwf a hamem
      obtain ⟨hFP', hPframe⟩ :=
        release_spec primaryPool s.freeP a.pblk hFP hawf.1 (hAFP a hamem)
      obtain ⟨hFC', hCframe⟩ :=
        release_spec cgnatPool s.freeC a.cblk hFC hawf.2 (hAFC a hamem)
      have hsub : List.Sublist (s.allocs.filter (fun x => decide (x.aid ≠ aid))) s.allocs :=
        List.filter_sublist s.allocs
      have hmem' : ∀ b ∈ s.allocs.filter (fun x => decide (x.aid ≠ aid)),
          b ∈ s.allocs ∧ b ≠ a := by
        intro b hb
        obtain ⟨hb1, hb2⟩ := List.mem_filter.mp hb
        refine ⟨hb1, ?_⟩
        intro he
        subst he
        exact (of_decide_eq_true hb2) haid
      refine ⟨hFP', hFC', ?_, hApd.sublist hsub, ?_, ?_, hIds.sublist hsub, ?_⟩
      · intro b hb
        exact hAwf b (hmem' b hb).1
      · intro b hb x hx
        obtain ⟨hbm, hbne⟩ := hmem' b hb
        have hrel := List.Pairwise.forall alloc_rel_symm hApd hbm hamem hbne
        exact hPframe b.pblk hrel.1 (hAFP b hbm) x hx
      · intro b hb x hx
        obtain ⟨hbm, hbne⟩ := hmem' b hb
        have hrel := List.Pairwise.forall alloc_rel_symm hApd hbm hamem hbne
        exact hCframe b.cblk hrel.2 (hAFC b hbm) x hx
      · intro b hb
        exact hIdLt b (hmem' b hb).1
  | move aid vpc =>
    simp only [step]
    have hproj : ∀ x : Alloc,
        (if x.aid = aid then Alloc.mk x.aid vpc x.pblk x.cblk else x).pblk = x.pblk ∧
        (if x.aid = aid then Alloc.mk x.aid vpc x.pblk x.cblk else x).cblk = x.cblk ∧
        (if x.aid = aid then Alloc.mk x.aid vpc x.pblk x.cblk else x).aid = x.aid := by
      intro x
      by_cases hx : x.aid = aid <;> simp [hx]
    refine ⟨hFP, hFC, ?_, ?_, ?_, ?_, ?_, ?_⟩
    · intro b hb
      obtain ⟨x, hx, hfx⟩ := List.mem_map.mp hb
      obtain ⟨e1, e2, _⟩ := hproj x
      rw [← hfx, e1, e2]
      exact hAwf x hx
    · refine List.Pairwise.map _ ?_ hApd
      intro x y hxy
      obtain ⟨ex1, ex2, _⟩ := hproj x
      obtain ⟨ey1, ey2, _⟩ := hproj y
      rw [ex1, ex2, ey1, ey2]
      exact hxy
    · intro b hb x hx
      obtain ⟨x0, hx0, hfx⟩ := List.mem_map.mp hb
      obtain ⟨e1, _, _⟩ := hproj x0
      rw [← hfx, e1]
      exact hAFP x0 hx0 x hx
    · intro b hb x hx
      obtain ⟨x0, hx0, hfx⟩ := List.mem_map.mp hb
      obtain ⟨_, e2, _⟩ := hproj x0
      rw [← hfx, e2]
      exact hAFC x0 hx0 x hx
    · refine List.Pairwise.map _ ?_ hIds
      intro x y hxy
      obtain ⟨_, _, ex3⟩ := hproj x
      obtain ⟨_, _, ey3⟩ := hproj y
      rw [ex3, ey3]
      exact hxy
    · intro b hb
      obtain ⟨x0, hx0, hfx⟩ := List.mem_map.mp hb
      obtain ⟨_, _, e3⟩ := hproj x0
      rw [← hfx, e3]
      exact hIdLt x0 hx0

theorem inv_foldl : ∀ (ops : List Op) (s : St), Inv s → Inv (ops.foldl step s) := by
  intro ops
  induction ops with
  | nil => intro s h; exact h
  | cons op t ih => intro s h; exact ih (step s op) (step_inv h op)

theorem usable_vals :
    usable 26 = 59 ∧ usable 25 = 123 ∧ usable 24 = 251 ∧ usable 23 = 507 ∧
    usable 22 = 1019 ∧ usable 21 = 2043 ∧ usable 20 = 4091 := by decide

theorem usable_mono {q q' : ℕ} (h : q ≤ q') : usable q' ≤ usable q := by
  unfold usable
  have := Nat.pow_le_pow_right (by norm_num : 1 ≤ 2) (by omega : 32 - q' ≤ 32 - q)
  omega

theorem c4_branch {h p : ℕ} (hgt : p = 26 ∨ usable (p + 1) < h) :
    ∀ q, 20 ≤ q → q ≤ 26 → h ≤ usable q → q ≤ p ∧ usable p ≤ usable q := by
  intro q hq1 hq2 hq3
  have hqp : q ≤ p := by
    by_contra hq
    rcases hgt with rfl | hgt
    · omega
    · have hm := usable_mono (show p + 1 ≤ q by omega)
      omega
  exact ⟨hqp, usable_mono hqp⟩

/-- C2: after any sequence of Create/Delete/Move operations from the startup
state, the live allocations' primary blocks are pairwise disjoint and their
CGNAT blocks are pairwise disjoint. -/
theorem c2_no_overlap (ops : List Op) :
    (run ops).allocs.Pairwise (fun a b => BDisj a.pblk b.pblk ∧ BDisj a.cblk b.cblk) :=
  (inv_foldl ops initSt inv_initSt).2.2.2.1

/-- C3: when PairingCoordinator.Allocate reserves a primary block but the
CGNAT reservation fails, the primary block is released again: the primary
free set after the failed create equals its state before, and in fact the
whole engine state is unchanged. -/
theorem c3_rollback (s : St) (vpc : List Char) (req : SizingReq) (p : ℕ)
    (bf : Block × Finset Block) (hInv : Inv s) (hres : resolve req = some p)
    (hP : reserve s.freeP p = some bf) (hC : reserve s.freeC (cgnatOf p) = none) :
    (step s (Op.create vpc req)).freeP = s.freeP ∧ step s (Op.create vpc req) = s := by
  obtain ⟨hFP, _⟩ := hInv
  obtain ⟨hp20, hp26⟩ := resolve_bounds hres
  have hround := reserve_release primaryPool good_primary s.freeP p bf.1 bf.2 hFP
    (by show 16 ≤ p; omega) (by omega) (by rw [hP])
  have hstep : step s (Op.create vpc req) = s := by
    simp only [step, hres, hP, hC]
    rw [hround]
  exact ⟨by rw [hstep], hstep⟩

/-- Witness for C3 at a concrete state: one free /26 primary block, an
exhausted CGNAT pool, an explicit /26 request. -/
theorem c3_rollback_witness :
    (step (St.mk {⟨167772160, 26⟩} ∅ ([] : List Alloc) 0)
        (Op.create ([] : List Char) (SizingReq.plen 26))).freeP =
      (St.mk {⟨167772160, 26⟩} ∅ ([] : List Alloc) 0).freeP :=
  (c3_rollback (St.mk {⟨167772160, 26⟩} ∅ ([] : List Alloc) 0) ([] : List Char)
    (SizingReq.plen 26) 26 (⟨167772160, 26⟩, ∅) (by decide) (by decide) (by decide)
    (by decide)).1

/-- C4: for every host count in [1, 4091] the host-count resolver returns the
primary prefix length of the smallest block whose usable-IP count
(`2^(32-p) - 5`) still covers the request — the numerically greatest
admissible prefix length, hence the least usable count — and the seven table
row bounds are exactly the usable counts of /26../20. -/
theorem c4_sizing_table (h : ℕ) (h1 : 1 ≤ h) (h2 : h ≤ 4091) :
    ∃ p, resolveHosts h = some p ∧ 20 ≤ p ∧ p ≤ 26 ∧ h ≤ usable p ∧
      (∀ q, 20 ≤ q → q ≤ 26 → h ≤ usable q → q ≤ p ∧ usable p ≤ usable q) ∧
      usable 26 = 59 ∧ usable 25 = 123 ∧ usable 24 = 251 ∧ usable 23 = 507 ∧
      usable 22 = 1019 ∧ usable 21 = 2043 ∧ usable 20 = 4091 := by
  obtain ⟨v26, v25, v24, v23, v22, v21, v20⟩ := usable_vals
  unfold resolveHosts
  split_ifs with c1 c2 c3 c4' c5 c6 c7 c8
  · omega
  · exact ⟨26, rfl, by norm_num, by norm_num, by omega,
      c4_branch (Or.inl rfl), v26, v25, v24, v23, v22, v21, v20⟩
  · exact ⟨25, rfl, by norm_num, by norm_num, by omega,
      c4_branch (Or.inr (by norm_num; omega)), v26, v25, v24, v23, v22, v21, v20⟩
  · exact ⟨24, rfl, by norm_num, by norm_num, by omega,
      c4_branch (Or.inr (by norm_num; omega)), v26, v25, v24, v23, v22, v21, v20⟩
  · exact ⟨23, rfl, by norm_num, by norm_num, by omega,
      c4_branch (Or.inr (by norm_num; omega)), v26, v25, v24, v23, v22, v21, v20⟩
  · exact ⟨22, rfl, by norm_num, by norm_num, by omega,
      c4_branch (Or.inr (by norm_num; omega)), v26, v25, v24, v23, v22, v21, v20⟩
  · exact ⟨21, rfl, by norm_num, by norm_num, by omega,
      c4_branch (Or.inr (by norm_num; omega)), v26, v25, v24, v23, v22, v21, v20⟩
  · exact ⟨20, rfl, by norm_num, by norm_num, by omega,
      c4_branch (Or.inr (by norm_num; omega)), v26, v25, v24, v23, v22, v21, v20⟩

/-- Witness for C4 at the table boundary h = 60. -/
theorem c4_sizing_table_witness :
    (1 ≤ 60 ∧ 60 ≤ 4091) ∧
    (∃ p, resolveHosts 60 = some p ∧ 20 ≤ p ∧ p ≤ 26 ∧ 60 ≤ usable p ∧
      (∀ q, 20 ≤ q → q ≤ 26 → 60 ≤ usable q → q ≤ p ∧ usable p ≤ usable q) ∧
      usable 26 = 59 ∧ usable 25 = 123 ∧ usable 24 = 251 ∧ usable 23 = 507 ∧
      usable 22 = 1019 ∧ usable 21 = 2043 ∧ usable 20 = 4091) :=
  ⟨by norm_num, c4_sizing_table 60 (by norm_num) (by norm_num)⟩

/-- C5: for a primary prefix length in [20, 26] the paired CGNAT prefix is
exactly `p - 5`, which already lies in [15, 21], so the clamp into [15, 21]
never changes the value. -/
theorem c5_cgnat_clamp (p : ℕ) (h1 : 20 ≤ p) (h2 : p ≤ 26) :
    cgnatOf p = p - 5 ∧ 15 ≤ p - 5 ∧ p - 5 ≤ 21 ∧ clampTo 15 21 (p - 5) = p - 5 := by
  unfold cgnatOf clampTo
  omega

/-- Witness for C5 at p = 23. -/
theorem c5_cgnat_clamp_witness :
    (20 ≤ 23 ∧ 23 ≤ 26) ∧
    (cgnatOf 23 = 23 - 5 ∧ 15 ≤ 23 - 5 ∧ 23 - 5 ≤ 21 ∧ clampTo 15 21 (23 - 5) = 23 - 5) :=
  ⟨by norm_num, c5_cgnat_clamp 23 (by norm_num) (by norm_num)⟩

/-- C1 counterexample: the host count 4091 is inside the engine's legal range
[1, 4091], yet the dashboard's `createAllocation` validation rejects it (its
bound is 4000), so the dashboard does not let every value of [1, 4091]
through. -/
theorem c1_counterexample :
    hostsFieldOk (some 4091) = false ∧ (1 : ℤ) ≤ 4091 ∧ (4091 : ℤ) ≤ 4091 ∧
    (resolveHosts 4091).isSome = true := by decide

/-- C1 amended: the spec-modelled engine rejects a host count as out of range
exactly when it is below 1 or above 4091, but the dashboard's
`createAllocation` validation accepts exactly the values 1..4000 (and rejects
an empty field), so 4001..4091 never reach the engine from the dashboard. -/
theorem c1_amended :
    (∀ n : ℕ, (resolveHosts n).isSome = true ↔ 1 ≤ n ∧ n ≤ 4091) ∧
    (∀ v : ℤ, hostsFieldOk (some v) = true ↔ 1 ≤ v ∧ v ≤ 4000) ∧
    hostsFieldOk none = false := by
  refine ⟨?_, ?_, rfl⟩
  · intro n
    unfold resolveHosts
    split_ifs <;> simp <;> omega
  · intro v
    show (if v < 1 then false else if 4000 < v then false else true) = true ↔ 1 ≤ v ∧ v ≤ 4000
    split_ifs <;> simp <;> omega

/-- C6: every payload `createAllocation` submits carries the trimmed,
non-empty VPC name and exactly one of the `hosts` / `prefix_length` fields,
chosen by the allocation mode. -/
theorem c6_payload (vpcRaw : List Char) (mode : Mode) (hostVal lenVal : Option ℤ)
    (pl : Payload) (h : createPayload vpcRaw mode hostVal lenVal = some pl) :
    pl.vpcField = mtrim vpcRaw ∧ pl.vpcField ≠ [] ∧
    (pl.hostsField.isSome = true ↔ mode = Mode.hosts) ∧
    (pl.lenField.isSome = true ↔ mode = Mode.plen) ∧
    ¬ (pl.hostsField.isSome = true ∧ pl.lenField.isSome = true) ∧
    (pl.hostsField.isSome = true ∨ pl.lenField.isSome = true) := by
  cases mode with
  | hosts =>
    have h' : (if mtrim vpcRaw = [] then none
        else if hostsFieldOk hostVal then some (Payload.mk (mtrim vpcRaw) hostVal none)
        else none) = some pl := h
    split_ifs at h' with h1 h2
    injection h' with he
    subst he
    have hvs : hostVal.isSome = true := by
      cases hostVal with
      | none => simp [hostsFieldOk] at h2
      | some v => rfl
    exact ⟨rfl, h1, by simp [hvs], by simp, by simp, by simp [hvs]⟩
  | plen =>
    have h' : (if mtrim vpcRaw = [] then none
        else match lenVal with
          | none => none
          | some v => some (Payload.mk (mtrim vpcRaw) none (some v))) = some pl := h
    split_ifs at h' with h1
    cases lenVal with
    | none => simp at h'
    | some v =>
      injection h' with he
      subst he
      exact ⟨rfl, h1, by simp, by simp, by simp, by simp⟩

/-- Witness for C6 at a concrete hosts-mode submission. -/
theorem c6_payload_witness :
    (Payload.mk ['a'] (some 5) none).vpcField = mtrim ['a'] ∧
    (Payload.mk ['a'] (some 5) none).vpcField ≠ [] ∧
    ((Payload.mk ['a'] (some 5) none).hostsField.isSome = true ↔ Mode.hosts = Mode.hosts) ∧
    ((Payload.mk ['a'] (some 5) none).lenField.isSome = true ↔ Mode.hosts = Mode.plen) ∧
    ¬ ((Payload.mk ['a'] (some 5) none).hostsField.isSome = true ∧
      (Payload.mk ['a'] (some 5) none).lenField.isSome = true) ∧
    ((Payload.mk ['a'] (some 5) none).hostsField.isSome = true ∨
      (Payload.mk ['a'] (some 5) none).lenField.isSome = true) :=
  c6_payload ['a'] Mode.hosts (some 5) none (Payload.mk ['a'] (some 5) none) (by decide)

/-- C9: `editAllocationVpc` sends no Move request when the prompt is
cancelled, when the entered name trims to empty, or when the trimmed name
equals the current VPC name. -/
theorem c9_edit_guard (s cur : List Char) :
    editDecision none cur = none ∧
    (mtrim s = [] → editDecision (some s) cur = none) ∧
    (mtrim s = cur → editDecision (some s) cur = none) := by
  refine ⟨rfl, ?_, ?_⟩
  · intro h
    show (if s = [] then none
      else if mtrim s = [] then none
      else if mtrim s = cur then none else some (mtrim s)) = none
    split_ifs with a b c <;> rfl
  · intro h
    show (if s = [] then none
      else if mtrim s = [] then none
      else if mtrim s = cur then none else some (mtrim s)) = none
    split_ifs with a b c <;> rfl

/-- Witness for C9: cancelled prompt, whitespace-only name, unchanged name. -/
theorem c9_edit_guard_witness :
    editDecision none ['a'] = none ∧
    editDecision (some [' ', ' ']) ['a'] = none ∧
    editDecision (some ['a']) ['a'] = none :=
  ⟨(c9_edit_guard ([] : List Char) ['a']).1,
   (c9_edit_guard [' ', ' '] ['a']).2.1 (by decide),
   (c9_edit_guard ['a'] ['a']).2.2 (by decide)⟩

/-- C10: the count shown by `deleteVpc` is the client-side count of cached
rows with that VPC name — independent of the `deleted_count` the server
returns (the success body is never read) — so it can differ from the number
actually deleted, as the concrete instance shows. -/
theorem c10_deletevpc_count (cached : List AllocRow) (name : List Char) (dc dc' : ℕ) :
    deleteVpcShownCount cached name true true dc = some (clientCount cached name) ∧
    deleteVpcShownCount cached name true true dc =
      deleteVpcShownCount cached name true true dc' ∧
    deleteVpcShownCount cached name false true dc = none ∧
    deleteVpcShownCount ([] : List AllocRow) name true true 3 = some 0 ∧ (0 : ℕ) ≠ 3 :=
  ⟨rfl, rfl, rfl, rfl, by decide⟩

theorem hget_some_hhas {hs : List (String × String)} {n v : String}
    (h : hget hs n = some v) : hhas hs n = true := by
  unfold hget at h
  obtain ⟨kv, hfind, hv⟩ := Option.map_eq_some'.mp h
  have hp := List.find?_some hfind
  unfold hhas
  rw [List.any_eq_true]
  exact ⟨kv, List.mem_of_find?_eq_some hfind, hp⟩

theorem hget_append_left {hs l : List (String × String)} {n v : String}
    (h : hget hs n = some v) : hget (hs ++ l) n = some v := by
  unfold hget at h ⊢
  rw [List.find?_append]
  obtain ⟨kv, hfind, hv⟩ := Option.map_eq_some'.mp h
  rw [hfind]
  simp [Option.or, hv]

theorem hhas_append_left {hs l : List (String × String)} {n : String}
    (h : hhas hs n = true) : hhas (hs ++ l) n = true := by
  unfold hhas at h ⊢
  rw [List.any_append, h]
  simp

theorem hhas_hset_self (hs : List (String × String)) (n v : String) :
    hhas (hsetIfAbsent hs n v) n = true := by
  unfold hsetIfAbsent
  split_ifs with h
  · exact h
  · unfold hhas
    rw [List.any_append]
    simp

theorem hhas_hset_mono {hs : List (String × String)} {n : String} (n' v' : String)
    (h : hhas hs n = true) : hhas (hsetIfAbsent hs n' v') n = true := by
  unfold hsetIfAbsent
  split_ifs
  · exact h
  · exact hhas_append_left h

theorem hget_hset_preserve {hs : List (String × String)} {n v : String} (n' v' : String)
    (h : hget hs n = some v) : hget (hsetIfAbsent hs n' v') n = some v := by
  unfold hsetIfAbsent
  split_ifs
  · exact h
  · exact hget_append_left h

theorem apiHeaders_props (callerHs : List (String × String)) (key reqId : String) :
    hhas (apiHeaders callerHs key reqId) apiKeyHeader = true ∧
    hhas (apiHeaders callerHs key reqId) reqIdHeader = true ∧
    (∀ v, hget callerHs apiKeyHeader = some v →
      hget (apiHeaders callerHs key reqId) apiKeyHeader = some v) ∧
    (∀ v, hget callerHs reqIdHeader = some v →
      hget (apiHeaders callerHs key reqId) reqIdHeader = some v) := by
  unfold apiHeaders
  refine ⟨?_, ?_, ?_, ?_⟩
  · exact hhas_hset_mono reqIdHeader reqId (hhas_hset_self callerHs apiKeyHeader key)
  · exact hhas_hset_self _ reqIdHeader reqId
  · intro v hv
    exact hget_hset_preserve reqIdHeader reqId (hget_hset_preserve apiKeyHeader key hv)
  · intro v hv
    exact hget_hset_preserve reqIdHeader reqId (hget_hset_preserve apiKeyHeader key hv)

/-- C7: every request that `api` actually issues carries both the X-API-Key
and the X-Request-Id header, and caller-supplied values of either header are
preserved rather than overwritten. -/
theorem c7_api_headers (st promptRes : Option String) (callerHs : List (String × String))
    (reqId : String) (hs : List (String × String)) (st' : Option String)
    (h : apiModel st promptRes callerHs reqId = Except.ok (hs, st')) :
    hhas hs apiKeyHeader = true ∧ hhas hs reqIdHeader = true ∧
    (∀ v, hget callerHs apiKeyHeader = some v → hget hs apiKeyHeader = some v) ∧
    (∀ v, hget callerHs reqIdHeader = some v → hget hs reqIdHeader = some v) := by
  unfold apiModel at h
  cases he : ensure st promptRes with
  | error e =>
    rw [he] at h
    cases h
  | ok kst =>
    rw [he] at h
    have h2 := Except.ok.inj h
    rw [Prod.mk.injEq] at h2
    rw [← h2.1]
    exact apiHeaders_props callerHs kst.1 reqId

/-- Witness for C7: a stored key, a caller-supplied X-API-Key header. -/
theorem c7_api_headers_witness :
    hhas (apiHeaders [(apiKeyHeader, ("caller"))] ("stored") ("rid")) apiKeyHeader = true ∧
    hhas (apiHeaders [(apiKeyHeader, ("caller"))] ("stored") ("rid")) reqIdHeader = true ∧
    (∀ v, hget [(apiKeyHeader, ("caller"))] apiKeyHeader = some v →
      hget (apiHeaders [(apiKeyHeader, ("caller"))] ("stored") ("rid")) apiKeyHeader = some v) ∧
    (∀ v, hget [(apiKeyHeader, ("caller"))] reqIdHeader = some v →
      hget (apiHeaders [(apiKeyHeader, ("caller"))] ("stored") ("rid")) reqIdHeader = some v) :=
  c7_api_headers (some ("stored")) none [(apiKeyHeader, ("caller"))] ("rid")
    (apiHeaders [(apiKeyHeader, ("caller"))] ("stored") ("rid")) (some ("stored")) rfl

/-- C8: `api` never issues an unauthenticated request — with no stored key
and a cancelled or empty prompt it throws before fetching; a key supplied at
the prompt is persisted, and any later call with a stored key returns it
without consulting the prompt. -/
theorem c8_key_persistence (st promptRes : Option String)
    (callerHs : List (String × String)) (reqId : String) :
    (lsGet st = none → (promptRes = none ∨ promptRes = some ("")) →
      apiModel st promptRes callerHs reqId = Except.error ()) ∧
    (∀ k, lsGet st = none → promptRes = some k → k ≠ ("") →
      apiModel st promptRes callerHs reqId =
        Except.ok (apiHeaders callerHs k reqId, some k)) ∧
    (∀ k : String, k ≠ ("") → ∀ pr, ensure (some k) pr = Except.ok (k, some k)) ∧
    (∀ k : String, k ≠ ("") → ∀ pr, apiModel (some k) pr callerHs reqId =
      Except.ok (apiHeaders callerHs k reqId, some k)) := by
  have hens : ∀ k : String, k ≠ ("") → ∀ pr, ensure (some k) pr = Except.ok (k, some k) := by
    intro k hk pr
    simp only [ensure, lsGet]
    rw [if_neg hk]
  refine ⟨?_, ?_, hens, ?_⟩
  · intro hst hpr
    simp only [apiModel, ensure]
    rw [hst]
    rcases hpr with rfl | rfl
    · rfl
    · simp
  · intro k hst hpr hk
    subst hpr
    simp only [apiModel, ensure, hst]
    simp [hk]
  · intro k hk pr
    simp only [apiModel]
    rw [hens k hk pr]

/-- Witness for C8: empty storage with cancelled prompt throws; a supplied
key is persisted; a stored key is returned without prompting. -/
theorem c8_key_persistence_witness :
    apiModel none none [] ("r") = Except.error () ∧
    apiModel none (some ("k")) [] ("r") =
      Except.ok (apiHeaders [] ("k") ("r"), some ("k")) ∧
    ensure (some ("k")) none = Except.ok (("k"), some ("k")) :=
  ⟨(c8_key_persistence none none [] ("r")).1 rfl (Or.inl rfl),
   (c8_key_persistence none (some ("k")) [] ("r")).2.1 ("k") rfl rfl (by decide),
   (c8_key_persistence none none [] ("r")).2.2.1 ("k") (by decide) none⟩

end IPAM
